import Mathlib

/-!
Verification of the AluVM assembler module format (`src/model/module.rs`):
the call table (symbol-resolution structure) and the module binary codec.

Rust `String` values (routine names, descriptions, the isae identifier) are
represented by their byte sequences (`List Nat`, each element `< 256`);
`BTreeMap` and `BTreeSet` are represented by key-sorted association lists
and sorted duplicate-free lists, which is the ordering contract those
containers provide.  Machine integers are `Nat` with explicit bounds.
-/

namespace Aluasm

/-- Opaque fixed-size content identifier of an external library (256-bit id),
represented by a natural number; its natural total order is the `Ord` of the
Rust type. -/
abbrev LibId := Nat

/-- Text (a Rust `String`) as its sequence of bytes. -/
abbrev Name := List Nat

/-- One external routine reference: routine name plus the set of call-site
offsets, kept as a sorted duplicate-free list (the `BTreeSet<u16>`). -/
structure CallRef where
  routine : Name
  sites : List Nat
deriving DecidableEq

/-- Errors of the call table, from `CallTableError` in the source. -/
inductive CallTableError where
  | LibNotFound : LibId → CallTableError
  | LibTableNotFound : LibId → CallTableError
  | RoutineNotFound : LibId → Nat → CallTableError
  | TooManyRoutines : CallTableError
  | TooManyLibs : CallTableError
deriving DecidableEq

/-- The call table: `BTreeMap<LibId, Vec<CallRef>>`, represented as an
association list that a well-formed value keeps sorted by key. -/
structure CallTable where
  table : List (LibId × List CallRef)
deriving DecidableEq

/-- Modelled from the spec: the machine's library-segment capacity constant
(`LIBS_SEGMENT_MAX_COUNT` of the external aluvm crate); the wire format
stores the library count in a single byte, so the capacity is 255. -/
def LIBS_SEGMENT_MAX_COUNT : Nat := 255

/-- Modelled from the spec: the ISA-extension segment maximum length
(`ISAE_SEGMENT_MAX_LEN` of the external aluvm crate); the wire format
stores the isae length in a single byte, so the maximum is 255. -/
def ISAE_SEGMENT_MAX_LEN : Nat := 255

/-- Lookup in an association list (first matching key), the view of
`BTreeMap::get`. -/
def mapLookup : List (Nat × α) → Nat → Option α
  | [], _ => none
  | (k1, v) :: rest, k => if k = k1 then some v else mapLookup rest k

/-- `BTreeMap::entry(k)` followed by an update: apply `f` to the value at `k`
(`none` when absent) and store the result, keeping the list key-sorted. -/
def mapUpsert (k : Nat) (f : Option α → α) : List (Nat × α) → List (Nat × α)
  | [] => [(k, f none)]
  | (k1, v1) :: rest =>
    if k = k1 then (k1, f (some v1)) :: rest
    else if k < k1 then (k, f none) :: (k1, v1) :: rest
    else (k1, v1) :: mapUpsert k f rest

/-- Position of the first `CallRef` whose routine name equals `r`
(`Vec::iter().position(..)` in the source). -/
def firstIdx (r : Name) : List CallRef → Option Nat
  | [] => none
  | c :: cs => if c.routine = r then some 0 else (firstIdx r cs).map (· + 1)

/-- The `CallRef` vector stored under `lib`, empty when the library is absent. -/
def lookupVec (t : CallTable) (lib : LibId) : List CallRef :=
  (mapLookup t.table lib).getD []

/-- `CallTable::find_or_insert` from the source: both capacity guards compare
the map length (number of libraries) before any mutation; then the routine is
looked up under `id` and appended with an empty site set when absent.  The
returned table is the post-state of the `&mut self` receiver. -/
def CallTable.find_or_insert (t : CallTable) (id : LibId) (routine : Name) :
    Except CallTableError (Nat × CallTable) :=
  if 65535 ≤ t.table.length then .error .TooManyRoutines
  else if LIBS_SEGMENT_MAX_COUNT ≤ t.table.length then .error .TooManyLibs
  else
    match firstIdx routine (lookupVec t id) with
    | some p => .ok (p, t)
    | none => .ok ((lookupVec t id).length,
        CallTable.mk (mapUpsert id (fun o => o.getD [] ++ [CallRef.mk routine []]) t.table))

/-- `CallTable::routines`: flatten all routine names, libraries in map (key)
order, routines in within-library order. -/
def CallTable.routines (t : CallTable) : List Name :=
  t.table.flatMap (fun p => p.2.map (fun c => c.routine))

/-- Keys of the association list are strictly increasing (the `BTreeMap`
representation invariant). -/
def keysSorted (l : List (Nat × α)) : Prop :=
  l.Pairwise (fun a b => a.1 < b.1)

/-- Total number of (library, routine) entries across all libraries. -/
def totalEntries (t : CallTable) : Nat :=
  (t.table.map (fun p => p.2.length)).sum

/-- Run one `find_or_insert` call for state-passing, keeping the table
unchanged when the call fails (the source returns before any mutation). -/
def applyCall (t : CallTable) (s : LibId × Name) : CallTable :=
  match t.find_or_insert s.1 s.2 with
  | .ok q => q.2
  | .error _ => t

/-- Run a sequence of `find_or_insert` calls. -/
def applyCalls (t : CallTable) : List (LibId × Name) → CallTable
  | [] => t
  | s :: rest => applyCalls (applyCall t s) rest

/-- Every call of the sequence succeeds when run from `t`. -/
def seqOk (t : CallTable) : List (LibId × Name) → Bool
  | [] => true
  | s :: rest =>
    match t.find_or_insert s.1 s.2 with
    | .ok q => seqOk q.2 rest
    | .error _ => false

/-- No library's `CallRef` sequence contains two entries with equal routine
names. -/
def dedupInv (t : CallTable) : Prop :=
  ∀ lib : LibId, (lookupVec t lib).Pairwise (fun a b => a.routine ≠ b.routine)

/-! ### Association-list (`BTreeMap`) lemmas -/

theorem sum_map_zero (l : List α) : (l.map (fun _ => (0 : Nat))).sum = 0 := by
  induction l with
  | nil => rfl
  | cons a l ih => simp [ih]

theorem mapLookup_eq_none {l : List (Nat × α)} {k : Nat} (h : ∀ p ∈ l, k ≠ p.1) :
    mapLookup l k = none := by
  induction l with
  | nil => rfl
  | cons hd tl ih =>
    obtain ⟨k1, v1⟩ := hd
    simp only [mapLookup]
    rw [if_neg (h (k1, v1) (by simp))]
    exact ih (fun p hp => h p (List.mem_cons_of_mem _ hp))

theorem mem_mapUpsert {l : List (Nat × α)} {k : Nat} {f : Option α → α} {p : Nat × α}
    (h : p ∈ mapUpsert k f l) : p.1 = k ∨ p ∈ l := by
  induction l with
  | nil =>
    simp only [mapUpsert, List.mem_singleton] at h
    subst h
    exact Or.inl rfl
  | cons hd tl ih =>
    obtain ⟨k1, v1⟩ := hd
    simp only [mapUpsert] at h
    split at h
    next heq =>
      rcases List.mem_cons.mp h with h1 | h1
      · subst h1; exact Or.inl heq.symm
      · exact Or.inr (List.mem_cons_of_mem _ h1)
    next hne =>
      split at h
      next hlt =>
        rcases List.mem_cons.mp h with h1 | h1
        · subst h1; exact Or.inl rfl
        · exact Or.inr h1
      next hge =>
        rcases List.mem_cons.mp h with h1 | h1
        · subst h1; exact Or.inr (List.mem_cons_self _ _)
        · rcases ih h1 with h2 | h2
          · exact Or.inl h2
          · exact Or.inr (List.mem_cons_of_mem _ h2)

theorem mapUpsert_sorted {l : List (Nat × α)} {k : Nat} {f : Option α → α}
    (hs : keysSorted l) : keysSorted (mapUpsert k f l) := by
  induction l with
  | nil => simp [mapUpsert, keysSorted]
  | cons hd tl ih =>
    obtain ⟨k1, v1⟩ := hd
    rw [keysSorted, List.pairwise_cons] at hs
    obtain ⟨h1, h2⟩ := hs
    simp only [mapUpsert]
    split
    next heq =>
      rw [keysSorted, List.pairwise_cons]
      exact ⟨h1, h2⟩
    next hne =>
      split
      next hlt =>
        rw [keysSorted, List.pairwise_cons]
        refine ⟨?_, ?_⟩
        · intro b hb
          rcases List.mem_cons.mp hb with h3 | h3
          · subst h3; exact hlt
          · exact lt_trans hlt (h1 b h3)
        · rw [List.pairwise_cons]
          exact ⟨h1, h2⟩
      next hge =>
        have hgt : k1 < k := by omega
        rw [keysSorted, List.pairwise_cons]
        refine ⟨?_, ih h2⟩
        intro b hb
        rcases mem_mapUpsert hb with h3 | h3
        · rw [h3]; exact hgt
        · exact h1 b h3

theorem mapLookup_mapUpsert_self {l : List (Nat × α)} {k : Nat} {f : Option α → α}
    (hs : keysSorted l) : mapLookup (mapUpsert k f l) k = some (f (mapLookup l k)) := by
  induction l with
  | nil => simp [mapUpsert, mapLookup]
  | cons hd tl ih =>
    obtain ⟨k1, v1⟩ := hd
    rw [keysSorted, List.pairwise_cons] at hs
    obtain ⟨h1, h2⟩ := hs
    simp only [mapUpsert, mapLookup]
    split
    next heq =>
      subst heq
      simp [mapLookup]
    next hne =>
      split
      next hlt =>
        have htl : mapLookup tl k = none := by
          refine mapLookup_eq_none (fun p hp => ?_)
          have := h1 p hp
          omega
        simp [mapLookup, hne, htl]
      next hge =>
        simp [mapLookup, hne, ih h2]

theorem mapLookup_mapUpsert_other {l : List (Nat × α)} {k k2 : Nat} {f : Option α → α}
    (h : k2 ≠ k) : mapLookup (mapUpsert k f l) k2 = mapLookup l k2 := by
  induction l with
  | nil => simp [mapUpsert, mapLookup, h]
  | cons hd tl ih =>
    obtain ⟨k1, v1⟩ := hd
    simp only [mapUpsert]
    split
    next heq =>
      subst heq
      simp only [mapLookup]
      rw [if_neg h, if_neg h]
    next hne =>
      split
      next hlt =>
        simp only [mapLookup]
        rw [if_neg h]
      next hge =>
        simp only [mapLookup]
        split
        · rfl
        · exact ih

/-! ### `firstIdx` lemmas -/

theorem firstIdx_eq_none {r : Name} {v : List CallRef} (h : firstIdx r v = none) :
    ∀ c ∈ v, c.routine ≠ r := by
  induction v with
  | nil => simp
  | cons c cs ih =>
    simp only [firstIdx] at h
    split at h
    next => exact absurd h (by simp)
    next hne =>
      intro d hd
      rcases List.mem_cons.mp hd with h1 | h1
      · subst h1; exact hne
      · exact ih (Option.map_eq_none.mp h) d h1

theorem firstIdx_append_last {r : Name} {v : List CallRef} {s : List Nat}
    (h : firstIdx r v = none) : firstIdx r (v ++ [CallRef.mk r s]) = some v.length := by
  induction v with
  | nil => simp [firstIdx]
  | cons c cs ih =>
    simp only [firstIdx, List.cons_append, List.append_eq] at h ⊢
    split at h
    next => exact absurd h (by simp)
    next hne =>
      rw [if_neg hne, ih (Option.map_eq_none.mp h)]
      simp [List.length_cons]

theorem firstIdx_append_of_some {r : Name} {v w : List CallRef} {p : Nat}
    (h : firstIdx r v = some p) : firstIdx r (v ++ w) = some p := by
  induction v generalizing p with
  | nil => simp [firstIdx] at h
  | cons c cs ih =>
    simp only [firstIdx, List.cons_append, List.append_eq] at h ⊢
    split at h
    next heq => rw [if_pos heq]; exact h
    next hne =>
      rw [if_neg hne]
      obtain ⟨q, hq, hqp⟩ := Option.map_eq_some'.mp h
      rw [ih hq]
      simp [hqp]

theorem firstIdx_isSome_of_mem {r : Name} {v : List CallRef} {c : CallRef}
    (hc : c ∈ v) (hr : c.routine = r) : ∃ p, firstIdx r v = some p := by
  induction v with
  | nil => simp at hc
  | cons d ds ih =>
    simp only [firstIdx]
    split
    next => exact ⟨0, rfl⟩
    next hne =>
      rcases List.mem_cons.mp hc with h1 | h1
      · subst h1; exact absurd hr hne
      · obtain ⟨q, hq⟩ := ih h1
        exact ⟨q + 1, by rw [hq]; rfl⟩

/-! ### Claim C10: successful lookup of an existing routine is a no-op -/

/-- Claim C10: for every call table whose library count is below both capacity
checks, if a `CallRef` with routine name `r` already exists under library
`lib`, then `find_or_insert lib r` returns `Ok` and leaves the entire table
unchanged. -/
theorem find_or_insert_frame (t : CallTable) (lib : LibId) (r : Name) (vec : List CallRef)
    (h1 : t.table.length < 65535) (h2 : t.table.length < LIBS_SEGMENT_MAX_COUNT)
    (h3 : mapLookup t.table lib = some vec)
    (h4 : ∃ c ∈ vec, c.routine = r) :
    ∃ p, t.find_or_insert lib r = .ok (p, t) := by
  obtain ⟨c, hc, hr⟩ := h4
  have hv : lookupVec t lib = vec := by simp [lookupVec, h3]
  obtain ⟨p, hp⟩ := firstIdx_isSome_of_mem hc hr
  refine ⟨p, ?_⟩
  rw [CallTable.find_or_insert, if_neg (by omega), if_neg (by omega), hv, hp]

def witTable : CallTable :=
  CallTable.mk [(7, [CallRef.mk [102] [], CallRef.mk [103] [4]])]

theorem find_or_insert_frame_witness :
    witTable.table.length < 65535 ∧ witTable.table.length < LIBS_SEGMENT_MAX_COUNT ∧
    mapLookup witTable.table 7 = some [CallRef.mk [102] [], CallRef.mk [103] [4]] ∧
    (∃ c ∈ [CallRef.mk [102] [], CallRef.mk [103] [4]], c.routine = [103]) ∧
    ∃ p, witTable.find_or_insert 7 [103] = .ok (p, witTable) :=
  ⟨by decide, by decide, rfl, ⟨CallRef.mk [103] [4], by decide, rfl⟩,
    find_or_insert_frame witTable 7 [103] [CallRef.mk [102] [], CallRef.mk [103] [4]]
      (by decide) (by decide) rfl ⟨CallRef.mk [103] [4], by decide, rfl⟩⟩

/-! ### Claim C9: flattening order of `routines()` -/

def nInit : Name := [105, 110, 105, 116]

def nRun : Name := [114, 117, 110]

def tabA : CallTable := CallTable.mk [(0, [CallRef.mk nInit []])]

def tabB : CallTable := CallTable.mk [(0, [CallRef.mk nInit [], CallRef.mk nRun []])]

def tabC : CallTable :=
  CallTable.mk [(0, [CallRef.mk nInit [], CallRef.mk nRun []]), (1, [CallRef.mk nInit []])]

def tabD : CallTable := CallTable.mk [(1, [CallRef.mk nInit []])]

def tabE : CallTable := CallTable.mk [(0, [CallRef.mk nInit []]), (1, [CallRef.mk nInit []])]

/-- Claim C9: the specified scenario holds — `find_or_insert(LibA, init)` is
0, `find_or_insert(LibA, run)` is 1, repeating `init` is 0 again,
`find_or_insert(LibB, init)` is 0 in its own index space, and `routines()`
yields LibA's names before LibB's; moreover libraries appear in key order
even when LibB (the greater id) is inserted first. -/
theorem routines_scenario :
    (CallTable.mk []).find_or_insert 0 nInit = .ok (0, tabA)
    ∧ tabA.find_or_insert 0 nRun = .ok (1, tabB)
    ∧ tabB.find_or_insert 0 nInit = .ok (0, tabB)
    ∧ tabB.find_or_insert 1 nInit = .ok (0, tabC)
    ∧ tabC.routines = [nInit, nRun, nInit]
    ∧ (0 : LibId) < 1
    ∧ (CallTable.mk []).find_or_insert 1 nInit = .ok (0, tabD)
    ∧ tabD.find_or_insert 0 nInit = .ok (0, tabE)
    ∧ tabE.routines = [nInit, nInit]
    ∧ tabE.table.map Prod.fst = [0, 1] :=
  ⟨rfl, rfl, rfl, rfl, rfl, Nat.zero_lt_one, rfl, rfl, rfl, rfl⟩

/-! ### Claim C1: the `TooManyRoutines` guard counts libraries, not entries -/

def hugeLibTable : CallTable :=
  CallTable.mk ((List.range 65535).map (fun n => (n, [])))

/-- Claim C1 fails on the code: on a (key-sorted) table holding 65535
libraries and zero (library, routine) entries, `find_or_insert` fails with
`TooManyRoutines` although the total entry count would only reach 1 — the
guard compares the number of libraries (`self.0.len()`), not the total
distinct-entry count, against the 16-bit index space. -/
theorem too_many_routines_counts_libraries :
    hugeLibTable.find_or_insert 70000 [102] = .error .TooManyRoutines
    ∧ totalEntries hugeLibTable = 0
    ∧ keysSorted hugeLibTable.table := by
  have hlen : hugeLibTable.table.length = 65535 := by simp [hugeLibTable]
  refine ⟨?_, ?_, ?_⟩
  · rw [CallTable.find_or_insert, hlen, if_pos (by omega)]
  · simp only [totalEntries, hugeLibTable]
    rw [List.map_map]
    exact sum_map_zero _
  · simp only [keysSorted, hugeLibTable]
    rw [List.pairwise_map]
    simpa using List.pairwise_lt_range 65535

/-! ### Claim C2: `TooManyLibs` fires regardless of whether the library is present -/

def fullLibTable : CallTable :=
  CallTable.mk ((List.range 255).map (fun n => (n, [CallRef.mk [102] []])))

/-- Claim C2 fails on the code: on a (key-sorted) table holding exactly
`LIBS_SEGMENT_MAX_COUNT` libraries, `find_or_insert` for library 0 — which is
already present with an entry for the requested routine — still fails with
`TooManyLibs`, because the guard only compares the current library count and
never checks whether `lib` is new. -/
theorem too_many_libs_fires_for_existing_lib :
    fullLibTable.find_or_insert 0 [102] = .error .TooManyLibs
    ∧ mapLookup fullLibTable.table 0 = some [CallRef.mk [102] []]
    ∧ keysSorted fullLibTable.table := by
  have hlen : fullLibTable.table.length = 255 := by simp [fullLibTable]
  refine ⟨?_, rfl, ?_⟩
  · rw [CallTable.find_or_insert, hlen, if_neg (by omega),
      if_pos (by rw [LIBS_SEGMENT_MAX_COUNT])]
  · simp only [keysSorted, fullLibTable]
    rw [List.pairwise_map]
    simpa using List.pairwise_lt_range 255

/-- Claim C2, amended: `find_or_insert` fails with `TooManyLibs` exactly when
the table's library count has reached `LIBS_SEGMENT_MAX_COUNT` (and is below
the 65535 threshold of the earlier `TooManyRoutines` guard), regardless of
whether `lib` already has entries. -/
theorem too_many_libs_iff (t : CallTable) (lib : LibId) (r : Name) :
    t.find_or_insert lib r = .error .TooManyLibs ↔
      (LIBS_SEGMENT_MAX_COUNT ≤ t.table.length ∧ t.table.length < 65535) := by
  rw [CallTable.find_or_insert]
  split
  next h =>
    constructor
    · intro he; exact absurd he (by simp)
    · intro hb; omega
  next h =>
    split
    next h2 =>
      constructor
      · intro _; exact ⟨h2, by omega⟩
      · intro _; rfl
    next h2 =>
      split
      · constructor
        · intro he; exact Except.noConfusion he
        · intro hb; exact absurd hb.1 h2
      · constructor
        · intro he; exact Except.noConfusion he
        · intro hb; exact absurd hb.1 h2

theorem too_many_libs_iff_witness :
    fullLibTable.find_or_insert 3 [104] = .error .TooManyLibs :=
  (too_many_libs_iff fullLibTable 3 [104]).mpr (by
    have hlen : fullLibTable.table.length = 255 := by simp [fullLibTable]
    rw [hlen, LIBS_SEGMENT_MAX_COUNT]
    omega)

/-! ### Claims C4 and C5: index stability and the dedup invariant -/

theorem find_or_insert_post {t t1 : CallTable} {lib : LibId} {r : Name} {p : Nat}
    (hs : keysSorted t.table) (h : t.find_or_insert lib r = .ok (p, t1)) :
    firstIdx r (lookupVec t1 lib) = some p ∧ keysSorted t1.table := by
  rw [CallTable.find_or_insert] at h
  split at h
  next => exact absurd h (by simp)
  next =>
    split at h
    next => exact absurd h (by simp)
    next =>
      split at h
      next p0 hf =>
        simp only [Except.ok.injEq, Prod.mk.injEq] at h
        obtain ⟨h1, h2⟩ := h
        subst h1
        subst h2
        exact ⟨hf, hs⟩
      next hf =>
        simp only [Except.ok.injEq, Prod.mk.injEq] at h
        obtain ⟨h1, h2⟩ := h
        subst h1
        subst h2
        constructor
        · rw [lookupVec, mapLookup_mapUpsert_self hs]
          simp only [Option.getD_some]
          exact firstIdx_append_last hf
        · exact mapUpsert_sorted hs

theorem applyCall_preserves {t : CallTable} {lib : LibId} {r : Name} {p : Nat}
    (hs : keysSorted t.table) (hidx : firstIdx r (lookupVec t lib) = some p)
    (s : LibId × Name) :
    keysSorted (applyCall t s).table ∧ firstIdx r (lookupVec (applyCall t s) lib) = some p := by
  unfold applyCall
  split
  next q hq =>
    rw [CallTable.find_or_insert] at hq
    split at hq
    next => exact absurd hq (by simp)
    next =>
      split at hq
      next => exact absurd hq (by simp)
      next =>
        split at hq
        next p0 hf =>
          simp only [Except.ok.injEq] at hq
          rw [← hq]
          exact ⟨hs, hidx⟩
        next hf =>
          simp only [Except.ok.injEq] at hq
          rw [← hq]
          refine ⟨mapUpsert_sorted hs, ?_⟩
          by_cases hl : lib = s.1
          · subst hl
            rw [lookupVec, mapLookup_mapUpsert_self hs]
            simp only [Option.getD_some]
            exact firstIdx_append_of_some hidx
          · rw [lookupVec, mapLookup_mapUpsert_other hl]
            exact hidx
  next => exact ⟨hs, hidx⟩

theorem applyCalls_preserves {lib : LibId} {r : Name} {p : Nat}
    (steps : List (LibId × Name)) :
    ∀ t : CallTable, keysSorted t.table → firstIdx r (lookupVec t lib) = some p →
      keysSorted (applyCalls t steps).table ∧
        firstIdx r (lookupVec (applyCalls t steps) lib) = some p := by
  induction steps with
  | nil => intro t hs hidx; exact ⟨hs, hidx⟩
  | cons s rest ih =>
    intro t hs hidx
    rw [applyCalls]
    obtain ⟨h1, h2⟩ := applyCall_preserves hs hidx s
    exact ih _ h1 h2

/-- Claim C4: on a well-formed (key-sorted) table, once `find_or_insert lib r`
has returned index `p`, any sequence of successful intervening
`find_or_insert` calls for other (library, routine) pairs leaves a repeated
successful `find_or_insert lib r` returning the same index `p`. -/
theorem find_or_insert_index_stable (t : CallTable) (lib : LibId) (r : Name)
    (p q : Nat) (t1 t3 : CallTable) (steps : List (LibId × Name))
    (hs : keysSorted t.table)
    (h1 : t.find_or_insert lib r = .ok (p, t1))
    (hdiff : ∀ s ∈ steps, s ≠ (lib, r))
    (hok : seqOk t1 steps = true)
    (h2 : (applyCalls t1 steps).find_or_insert lib r = .ok (q, t3)) :
    q = p := by
  obtain ⟨hidx, hs1⟩ := find_or_insert_post hs h1
  obtain ⟨hs2, hidx2⟩ := applyCalls_preserves steps t1 hs1 hidx
  rw [CallTable.find_or_insert] at h2
  split at h2
  next => exact absurd h2 (by simp)
  next =>
    split at h2
    next => exact absurd h2 (by simp)
    next =>
      split at h2
      next p0 hf =>
        rw [hidx2] at hf
        simp only [Except.ok.injEq, Prod.mk.injEq] at h2
        obtain ⟨hq, -⟩ := h2
        rw [← hq]
        exact (Option.some.inj hf).symm
      next hf =>
        rw [hidx2] at hf
        exact absurd hf (by simp)

theorem find_or_insert_index_stable_witness :
    keysSorted (CallTable.mk []).table
    ∧ (CallTable.mk []).find_or_insert 0 nInit = .ok (0, tabA)
    ∧ (∀ s ∈ [((1 : LibId), nRun), ((1 : LibId), nInit)], s ≠ ((0 : LibId), nInit))
    ∧ seqOk tabA [(1, nRun), (1, nInit)] = true
    ∧ (applyCalls tabA [(1, nRun), (1, nInit)]).find_or_insert 0 nInit =
        .ok (0, CallTable.mk [(0, [CallRef.mk nInit []]),
          (1, [CallRef.mk nRun [], CallRef.mk nInit []])])
    ∧ (0 : Nat) = 0 :=
  ⟨by simp [keysSorted], rfl, by decide, rfl, rfl,
    find_or_insert_index_stable (CallTable.mk []) 0 nInit 0 0 tabA
      (CallTable.mk [(0, [CallRef.mk nInit []]),
        (1, [CallRef.mk nRun [], CallRef.mk nInit []])])
      [(1, nRun), (1, nInit)] (by simp [keysSorted]) rfl (by decide) rfl rfl⟩

theorem applyCall_dedup {t : CallTable} (hs : keysSorted t.table) (hd : dedupInv t)
    (s : LibId × Name) :
    keysSorted (applyCall t s).table ∧ dedupInv (applyCall t s) := by
  unfold applyCall
  split
  next q hq =>
    rw [CallTable.find_or_insert] at hq
    split at hq
    next => exact absurd hq (by simp)
    next =>
      split at hq
      next => exact absurd hq (by simp)
      next =>
        split at hq
        next p0 hf =>
          simp only [Except.ok.injEq] at hq
          rw [← hq]
          exact ⟨hs, hd⟩
        next hf =>
          simp only [Except.ok.injEq] at hq
          rw [← hq]
          refine ⟨mapUpsert_sorted hs, ?_⟩
          intro lib
          by_cases hl : lib = s.1
          · subst hl
            rw [lookupVec, mapLookup_mapUpsert_self hs]
            simp only [Option.getD_some]
            rw [List.pairwise_append]
            refine ⟨hd s.1, by simp, ?_⟩
            intro a ha b hb
            rw [List.mem_singleton] at hb
            subst hb
            exact firstIdx_eq_none hf a ha
          · rw [lookupVec, mapLookup_mapUpsert_other hl]
            exact hd lib
  next => exact ⟨hs, hd⟩

theorem applyCalls_dedup (calls : List (LibId × Name)) :
    ∀ t : CallTable, keysSorted t.table → dedupInv t →
      keysSorted (applyCalls t calls).table ∧ dedupInv (applyCalls t calls) := by
  induction calls with
  | nil => intro t hs hd; exact ⟨hs, hd⟩
  | cons s rest ih =>
    intro t hs hd
    rw [applyCalls]
    obtain ⟨h1, h2⟩ := applyCall_dedup hs hd s
    exact ih _ h1 h2

/-- Claim C5: starting from an empty call table, after any sequence of
`find_or_insert` calls (successful or failing), no library's `CallRef`
sequence contains two entries with equal routine names. -/
theorem dedup_after_any_calls (calls : List (LibId × Name)) :
    dedupInv (applyCalls (CallTable.mk []) calls) :=
  (applyCalls_dedup calls (CallTable.mk []) (by simp [keysSorted])
    (fun _ => by simp [lookupVec, mapLookup])).2

/-! ### The module binary codec

Byte streams are `List Nat` with every element a byte value; readers reduce
each consumed element modulo 256, so arbitrary `Nat` inputs are read as the
byte stream they denote.  The primitive codecs delegated to the external
aluvm crate (text, byte strings, `LibId`, `LibSeg`, numeric defaults) are
modelled from the spec's wire-format table: 1-byte length-prefixed text,
2-byte (word, little-endian) length-prefixed byte sequences, fixed 32-byte
little-endian library ids, and a word-length-prefixed optional numeric
field. -/

/-- Decode failures: `truncated` models the source's `Io`/end-of-data error,
`FloatLayout` the unknown-float-layout error of the aluvm decoder. -/
inductive DecodeError where
  | truncated : DecodeError
  | FloatLayout : Nat → DecodeError
deriving DecidableEq

instance (l : List (Nat × α)) : Decidable (keysSorted l) := by
  unfold keysSorted
  infer_instance

/-- Integer layout: sign flag plus byte width (`IntLayout` of aluvm). -/
structure IntLayout where
  signed : Bool
  bytes : Nat
deriving DecidableEq

/-- Modelled from the spec: the machine's recognized float layouts (the
external aluvm `FloatLayout`), with numeric codes 2–9; codes 0, 1 and 0xFF
are taken by the integer and byte-string tags. -/
inductive FloatLayout where
  | bf16
  | ieee16
  | ieee32
  | ieee64
  | x87
  | ieee128
  | ieee256
  | tapered
deriving DecidableEq

def FloatLayout.toNat : FloatLayout → Nat
  | .bf16 => 2
  | .ieee16 => 3
  | .ieee32 => 4
  | .ieee64 => 5
  | .x87 => 6
  | .ieee128 => 7
  | .ieee256 => 8
  | .tapered => 9

/-- Modelled from the spec: `FloatLayout::with`, mapping a tag byte to a
recognized float layout when one exists. -/
def FloatLayout.withTag : Nat → Option FloatLayout
  | 2 => some .bf16
  | 3 => some .ieee16
  | 4 => some .ieee32
  | 5 => some .ieee64
  | 6 => some .x87
  | 7 => some .ieee128
  | 8 => some .ieee256
  | 9 => some .tapered
  | _ => none

/-- `DataType` of the source: a byte-string, integer or float value
descriptor, each with an optional default.  Numeric defaults (`MaybeNumber`)
are modelled as their raw little-endian byte sequences. -/
inductive DataType where
  | ByteStr : Option (List Nat) → DataType
  | Int : IntLayout → Option (List Nat) → DataType
  | Float : FloatLayout → Option (List Nat) → DataType
deriving DecidableEq

/-- A declared input slot: description plus value descriptor. -/
structure Variable where
  info : Name
  data : DataType
deriving DecidableEq

/-- The library segment (external collaborator): an ordered bounded set of
library ids, kept as a sorted duplicate-free list. -/
structure LibSeg where
  libs : List LibId
deriving DecidableEq

/-- The top-level module, fields as in the source. -/
structure Module where
  isae : Name
  code : List Nat
  data : List Nat
  libs : LibSeg
  vars : List Variable
  imports : CallTable
  exports : List (Name × Nat)
deriving DecidableEq

/-! #### Encoders -/

def writeU16 (n : Nat) : List Nat := [n % 256, n / 256 % 256]

def natToBytesLE : Nat → Nat → List Nat
  | 0, _ => []
  | w + 1, n => n % 256 :: natToBytesLE w (n / 256)

def natFromBytesLE : List Nat → Nat
  | [] => 0
  | b :: bs => b % 256 + 256 * natFromBytesLE bs

def encodeStr (s : Name) : List Nat := s.length % 256 :: s

def encodeBytes16 (bs : List Nat) : List Nat := writeU16 bs.length ++ bs

def encodeLibId (id : LibId) : List Nat := natToBytesLE 32 id

def encodeSites (s : List Nat) : List Nat := writeU16 s.length ++ (s.map writeU16).flatten

def CallRef.encode (c : CallRef) : List Nat := encodeStr c.routine ++ encodeSites c.sites

def encodeTableEntry (p : LibId × List CallRef) : List Nat :=
  encodeLibId p.1 ++ (writeU16 p.2.length ++ (p.2.map CallRef.encode).flatten)

def CallTable.encode (t : CallTable) : List Nat :=
  t.table.length % 256 :: (t.table.map encodeTableEntry).flatten

def LibSeg.encode (s : LibSeg) : List Nat :=
  s.libs.length % 256 :: (s.libs.map encodeLibId).flatten

def encodeMaybeNumber : Option (List Nat) → List Nat
  | none => writeU16 0
  | some bs => writeU16 bs.length ++ bs

def DataType.encode : DataType → List Nat
  | .ByteStr none => 255 :: writeU16 0
  | .ByteStr (some bs) => 255 :: (writeU16 bs.length ++ bs)
  | .Int l d => (if l.signed then 1 else 0) :: (writeU16 l.bytes ++ encodeMaybeNumber d)
  | .Float f d => f.toNat :: encodeMaybeNumber d

def Variable.encode (v : Variable) : List Nat := encodeStr v.info ++ v.data.encode

def encodeExportEntry (p : Name × Nat) : List Nat := encodeStr p.1 ++ writeU16 p.2

def encodeExports (e : List (Name × Nat)) : List Nat :=
  writeU16 e.length ++ (e.map encodeExportEntry).flatten

def encodeVars (vs : List Variable) : List Nat :=
  writeU16 vs.length ++ (vs.map Variable.encode).flatten

/-- `Module` encoding: fields concatenated in the fixed order of the source's
`Encode` impl — isae, code, data, libs, imports, exports, vars. -/
def Module.encode (m : Module) : List Nat :=
  encodeStr m.isae ++ (encodeBytes16 m.code ++ (encodeBytes16 m.data ++
    (m.libs.encode ++ (m.imports.encode ++ (encodeExports m.exports ++ encodeVars m.vars)))))

/-! #### Decoders

Sequencing of fallible reads is written with `andThen`, the model of the
source's `?` operator: an error short-circuits, a success passes the decoded
value and the remaining input on. -/

def andThen (x : Except DecodeError (α × List Nat))
    (f : α → List Nat → Except DecodeError (β × List Nat)) :
    Except DecodeError (β × List Nat) :=
  match x with
  | .error e => .error e
  | .ok (a, r) => f a r

def readByte : List Nat → Except DecodeError (Nat × List Nat)
  | [] => .error .truncated
  | b :: rest => .ok (b % 256, rest)

def readBytes : Nat → List Nat → Except DecodeError (List Nat × List Nat)
  | 0, input => .ok ([], input)
  | _ + 1, [] => .error .truncated
  | n + 1, b :: input =>
    andThen (readBytes n input) (fun bs r => .ok (b % 256 :: bs, r))

def readU16 (input : List Nat) : Except DecodeError (Nat × List Nat) :=
  andThen (readByte input) (fun b0 r1 =>
    andThen (readByte r1) (fun b1 r2 => .ok (b0 + 256 * b1, r2)))

def decodeCount (dec : List Nat → Except DecodeError (α × List Nat)) :
    Nat → List Nat → Except DecodeError (List α × List Nat)
  | 0, input => .ok ([], input)
  | n + 1, input =>
    andThen (dec input) (fun a r1 =>
      andThen (decodeCount dec n r1) (fun xs r2 => .ok (a :: xs, r2)))

def decodeStr (input : List Nat) : Except DecodeError (Name × List Nat) :=
  andThen (readByte input) (fun n r1 => readBytes n r1)

def decodeBytes16 (input : List Nat) : Except DecodeError (List Nat × List Nat) :=
  andThen (readU16 input) (fun n r1 => readBytes n r1)

def decodeLibId (input : List Nat) : Except DecodeError (LibId × List Nat) :=
  andThen (readBytes 32 input) (fun bs r1 => .ok (natFromBytesLE bs, r1))

/-- `BTreeSet<u16>` insertion into the sorted duplicate-free representation. -/
def setInsertNat (x : Nat) : List Nat → List Nat
  | [] => [x]
  | y :: ys => if x = y then y :: ys else if x < y then x :: y :: ys else y :: setInsertNat x ys

def decodeSites (input : List Nat) : Except DecodeError (List Nat × List Nat) :=
  andThen (readU16 input) (fun n r1 =>
    andThen (decodeCount readU16 n r1) (fun xs r2 =>
      .ok (xs.foldl (fun acc x => setInsertNat x acc) [], r2)))

def CallRef.decode (input : List Nat) : Except DecodeError (CallRef × List Nat) :=
  andThen (decodeStr input) (fun r r1 =>
    andThen (decodeSites r1) (fun s r2 => .ok (CallRef.mk r s, r2)))

def decodeTableEntry (input : List Nat) :
    Except DecodeError ((LibId × List CallRef) × List Nat) :=
  andThen (decodeLibId input) (fun id r1 =>
    andThen (readU16 r1) (fun n r2 =>
      andThen (decodeCount CallRef.decode n r2) (fun refs r3 => .ok ((id, refs), r3))))

/-- `CallTable` decoding from the source: a 1-byte library count, then per
library a `LibId` and a word-length-prefixed `CallRef` sequence, inserted
into the map (`BTreeMap::insert`, replacing on an equal key) without any
validation of the table's semantic invariants. -/
def CallTable.decode (input : List Nat) : Except DecodeError (CallTable × List Nat) :=
  andThen (readByte input) (fun n r1 =>
    andThen (decodeCount decodeTableEntry n r1) (fun entries r2 =>
      .ok (CallTable.mk (entries.foldl (fun acc p => mapUpsert p.1 (fun _ => p.2) acc) []),
        r2)))

def LibSeg.decode (input : List Nat) : Except DecodeError (LibSeg × List Nat) :=
  andThen (readByte input) (fun n r1 =>
    andThen (decodeCount decodeLibId n r1) (fun ids r2 =>
      .ok (LibSeg.mk (ids.foldl (fun acc x => setInsertNat x acc) []), r2)))

/-- Lexicographic byte order, the `Ord` of Rust `String` on byte sequences. -/
def bytesLt : List Nat → List Nat → Bool
  | [], [] => false
  | [], _ :: _ => true
  | _ :: _, [] => false
  | a :: as1, b :: bs1 => if a < b then true else if b < a then false else bytesLt as1 bs1

/-- `BTreeMap<String, u16>` insertion into the key-sorted representation. -/
def exportsInsert (k : Name) (v : Nat) : List (Name × Nat) → List (Name × Nat)
  | [] => [(k, v)]
  | (k1, v1) :: rest =>
    if k = k1 then (k1, v) :: rest
    else if bytesLt k k1 then (k, v) :: (k1, v1) :: rest
    else (k1, v1) :: exportsInsert k v rest

def decodeExportEntry (input : List Nat) : Except DecodeError ((Name × Nat) × List Nat) :=
  andThen (decodeStr input) (fun k r1 =>
    andThen (readU16 r1) (fun v r2 => .ok ((k, v), r2)))

def decodeExports (input : List Nat) : Except DecodeError (List (Name × Nat) × List Nat) :=
  andThen (readU16 input) (fun n r1 =>
    andThen (decodeCount decodeExportEntry n r1) (fun es r2 =>
      .ok (es.foldl (fun acc p => exportsInsert p.1 p.2 acc) [], r2)))

def decodeMaybeNumber (input : List Nat) :
    Except DecodeError (Option (List Nat) × List Nat) :=
  andThen (decodeBytes16 input) (fun bs r1 =>
    .ok (if bs = [] then none else some bs, r1))

/-- `DataType` decoding from the source: dispatch on the tag byte — `0xFF`
byte-string (decoded empty sequence means no default), `0`/`1` integer with
signedness `tag == 1` and a 16-bit width, any other value a float layout
resolved through `FloatLayout::with`, failing with the `FloatLayout` error
when unrecognized. -/
def DataType.decode (input : List Nat) : Except DecodeError (DataType × List Nat) :=
  andThen (readByte input) (fun tag r1 =>
    if tag = 255 then
      andThen (decodeBytes16 r1) (fun bs r2 =>
        .ok (DataType.ByteStr (if bs = [] then none else some bs), r2))
    else if tag ≤ 1 then
      andThen (readU16 r1) (fun w r2 =>
        andThen (decodeMaybeNumber r2) (fun d r3 =>
          .ok (DataType.Int (IntLayout.mk (tag == 1) w) d, r3)))
    else
      match FloatLayout.withTag tag with
      | none => .error (DecodeError.FloatLayout tag)
      | some f =>
        andThen (decodeMaybeNumber r1) (fun d r2 => .ok (DataType.Float f d, r2)))

def Variable.decode (input : List Nat) : Except DecodeError (Variable × List Nat) :=
  andThen (decodeStr input) (fun i r1 =>
    andThen (DataType.decode r1) (fun d r2 => .ok (Variable.mk i d, r2)))

def decodeVars (input : List Nat) : Except DecodeError (List Variable × List Nat) :=
  andThen (readU16 input) (fun n r1 => decodeCount Variable.decode n r1)

/-- `Module` decoding from the source: fields reconstructed in encode order;
no isae-length or call-table validation is performed (the source's
`ModuleError` enum is explicitly marked as unused after a refactoring). -/
def Module.decode (input : List Nat) : Except DecodeError (Module × List Nat) :=
  andThen (decodeStr input) (fun isae r1 =>
    andThen (decodeBytes16 r1) (fun code r2 =>
      andThen (decodeBytes16 r2) (fun dat r3 =>
        andThen (LibSeg.decode r3) (fun libs r4 =>
          andThen (CallTable.decode r4) (fun imports r5 =>
            andThen (decodeExports r5) (fun exports r6 =>
              andThen (decodeVars r6) (fun vars r7 =>
                .ok (Module.mk isae code dat libs vars imports exports, r7))))))))

/-! #### Validity: the data-model bounds a well-formed module satisfies -/

def textOk (s : Name) : Prop := s.length ≤ 255 ∧ ∀ b ∈ s, b < 256

def bytes16Ok (bs : List Nat) : Prop := bs.length ≤ 65535 ∧ ∀ b ∈ bs, b < 256

def sitesOk (s : List Nat) : Prop :=
  s.length ≤ 65535 ∧ (∀ x ∈ s, x < 65536) ∧ s.Pairwise (· < ·)

def callRefOk (c : CallRef) : Prop := textOk c.routine ∧ sitesOk c.sites

/-- An optional default is absent or a non-empty bounded byte sequence; the
wire format serializes an absent default as an empty sequence, so an empty
present default is not representable. -/
def defaultOk : Option (List Nat) → Prop
  | none => True
  | some bs => bs ≠ [] ∧ bs.length ≤ 65535 ∧ ∀ b ∈ bs, b < 256

instance (d : Option (List Nat)) : Decidable (defaultOk d) :=
  match d with
  | none => isTrue trivial
  | some bs => inferInstanceAs (Decidable (bs ≠ [] ∧ bs.length ≤ 65535 ∧ ∀ b ∈ bs, b < 256))

def dataTypeOk : DataType → Prop
  | .ByteStr d => defaultOk d
  | .Int l d => l.bytes ≤ 65535 ∧ defaultOk d
  | .Float _ d => defaultOk d

instance : (t : DataType) → Decidable (dataTypeOk t)
  | .ByteStr d => inferInstanceAs (Decidable (defaultOk d))
  | .Int l d => inferInstanceAs (Decidable (l.bytes ≤ 65535 ∧ defaultOk d))
  | .Float _ d => inferInstanceAs (Decidable (defaultOk d))

def variableOk (v : Variable) : Prop := textOk v.info ∧ dataTypeOk v.data

def tableOk (t : CallTable) : Prop :=
  t.table.length ≤ 255 ∧ keysSorted t.table ∧
    ∀ p ∈ t.table, p.1 < 256 ^ 32 ∧ p.2.length ≤ 65535 ∧ ∀ c ∈ p.2, callRefOk c

def libSegOk (s : LibSeg) : Prop :=
  s.libs.length ≤ 255 ∧ s.libs.Pairwise (· < ·) ∧ ∀ x ∈ s.libs, x < 256 ^ 32

def exportsOk (e : List (Name × Nat)) : Prop :=
  e.length ≤ 65535 ∧ e.Pairwise (fun a b => bytesLt a.1 b.1 = true) ∧
    ∀ p ∈ e, textOk p.1 ∧ p.2 < 65536

/-- A valid module: every field respects the data-model bounds of section 3
of the spec, maps and sets are in their container-sorted representation, and
optional defaults are absent-or-non-empty. -/
def Module.valid (m : Module) : Prop :=
  textOk m.isae ∧ bytes16Ok m.code ∧ bytes16Ok m.data ∧ libSegOk m.libs ∧
    tableOk m.imports ∧ exportsOk m.exports ∧
    m.vars.length ≤ 65535 ∧ ∀ v ∈ m.vars, variableOk v

instance (s : Name) : Decidable (textOk s) := by
  unfold textOk
  infer_instance

instance (bs : List Nat) : Decidable (bytes16Ok bs) := by
  unfold bytes16Ok
  infer_instance

instance (s : List Nat) : Decidable (sitesOk s) := by
  unfold sitesOk
  infer_instance

instance (c : CallRef) : Decidable (callRefOk c) := by
  unfold callRefOk
  infer_instance

instance (v : Variable) : Decidable (variableOk v) := by
  unfold variableOk
  infer_instance

instance (t : CallTable) : Decidable (tableOk t) := by
  unfold tableOk
  infer_instance

instance (s : LibSeg) : Decidable (libSegOk s) := by
  unfold libSegOk
  infer_instance

instance (e : List (Name × Nat)) : Decidable (exportsOk e) := by
  unfold exportsOk
  infer_instance

instance (m : Module) : Decidable (Module.valid m) := by
  unfold Module.valid
  infer_instance

/-! ### Primitive reader lemmas -/

theorem andThen_ok {x : Except DecodeError (α × List Nat)}
    {f : α → List Nat → Except DecodeError (β × List Nat)} {a : α} {r : List Nat}
    (h : x = .ok (a, r)) : andThen x f = f a r := by
  subst h
  rfl

theorem andThen_ok_inv {x : Except DecodeError (α × List Nat)}
    {f : α → List Nat → Except DecodeError (β × List Nat)} {b : β × List Nat}
    (h : andThen x f = .ok b) : ∃ a r, x = .ok (a, r) ∧ f a r = .ok b := by
  cases x with
  | error e => exact absurd h (by simp [andThen])
  | ok p =>
    obtain ⟨a, r⟩ := p
    exact ⟨a, r, rfl, h⟩

theorem readByte_cons {b : Nat} {rest : List Nat} (hb : b < 256) :
    readByte (b :: rest) = .ok (b, rest) := by
  simp [readByte, Nat.mod_eq_of_lt hb]

theorem readByte_lt {input : List Nat} {b : Nat} {r : List Nat}
    (h : readByte input = .ok (b, r)) : b < 256 := by
  cases input with
  | nil => exact absurd h (by simp [readByte])
  | cons x rest =>
    simp only [readByte, Except.ok.injEq, Prod.mk.injEq] at h
    obtain ⟨h1, -⟩ := h
    omega

theorem readBytes_append {bs : List Nat} (h : ∀ b ∈ bs, b < 256) (rest : List Nat) :
    readBytes bs.length (bs ++ rest) = .ok (bs, rest) := by
  induction bs with
  | nil => rfl
  | cons b tl ih =>
    have hb : b < 256 := h b (List.mem_cons_self b tl)
    have ih2 := ih (fun x hx => h x (List.mem_cons_of_mem _ hx))
    simp only [List.cons_append, List.length_cons, readBytes, List.append_eq]
    rw [andThen_ok ih2]
    simp [Nat.mod_eq_of_lt hb]

theorem readBytes_append_len {n : Nat} {bs : List Nat} (hlen : bs.length = n)
    (h : ∀ b ∈ bs, b < 256) (rest : List Nat) :
    readBytes n (bs ++ rest) = .ok (bs, rest) := by
  subst hlen
  exact readBytes_append h rest

theorem readBytes_length {n : Nat} {input bs r : List Nat}
    (h : readBytes n input = .ok (bs, r)) : bs.length = n := by
  induction n generalizing input bs r with
  | zero =>
    simp only [readBytes, Except.ok.injEq, Prod.mk.injEq] at h
    rw [← h.1]
    rfl
  | succ k ih =>
    cases input with
    | nil => exact absurd h (by simp [readBytes])
    | cons b tl =>
      simp only [readBytes] at h
      obtain ⟨a, r1, h1, h2⟩ := andThen_ok_inv h
      simp only [Except.ok.injEq, Prod.mk.injEq] at h2
      obtain ⟨h3, -⟩ := h2
      rw [← h3]
      simp [ih h1]

theorem readU16_write {n : Nat} (h : n < 65536) (rest : List Nat) :
    readU16 (writeU16 n ++ rest) = .ok (n, rest) := by
  have h1 : n % 256 < 256 := by omega
  have h2 : n / 256 % 256 < 256 := by omega
  simp only [writeU16, List.cons_append, List.nil_append, readU16]
  simp only [andThen_ok (readByte_cons h1), andThen_ok (readByte_cons h2)]
  have h3 : n % 256 + 256 * (n / 256 % 256) = n := by omega
  rw [h3]

theorem decodeCount_encode {dec : List Nat → Except DecodeError (α × List Nat)}
    {enc : α → List Nat} {l : List α}
    (h : ∀ a ∈ l, ∀ r : List Nat, dec (enc a ++ r) = .ok (a, r)) (rest : List Nat) :
    decodeCount dec l.length ((l.map enc).flatten ++ rest) = .ok (l, rest) := by
  induction l with
  | nil => rfl
  | cons a tl ih =>
    have ha := h a (List.mem_cons_self a tl)
    have htl := ih (fun x hx r => h x (List.mem_cons_of_mem _ hx) r)
    simp only [List.length_cons, List.map_cons, List.flatten_cons, List.append_assoc,
      decodeCount]
    simp only [andThen_ok (ha _), andThen_ok htl]

theorem decodeCount_length {dec : List Nat → Except DecodeError (α × List Nat)} :
    ∀ {n : Nat} {input : List Nat} {l : List α} {r : List Nat},
      decodeCount dec n input = .ok (l, r) → l.length = n := by
  intro n
  induction n with
  | zero =>
    intro input l r h
    simp only [decodeCount, Except.ok.injEq, Prod.mk.injEq] at h
    rw [← h.1]
    rfl
  | succ k ih =>
    intro input l r h
    simp only [decodeCount] at h
    obtain ⟨a, r1, h1, h2⟩ := andThen_ok_inv h
    obtain ⟨xs, r2, h3, h4⟩ := andThen_ok_inv h2
    simp only [Except.ok.injEq, Prod.mk.injEq] at h4
    rw [← h4.1]
    simp [ih h3]

/-! ### Sorted-fold rebuild lemmas -/

theorem setInsertNat_append {x : Nat} {s : List Nat} (h : ∀ y ∈ s, y < x) :
    setInsertNat x s = s ++ [x] := by
  induction s with
  | nil => rfl
  | cons y ys ih =>
    have hy : y < x := h y (List.mem_cons_self y ys)
    simp only [setInsertNat]
    rw [if_neg (by omega), if_neg (by omega),
      ih (fun z hz => h z (List.mem_cons_of_mem _ hz))]
    simp

theorem foldl_setInsert_sorted {s : List Nat} (h : s.Pairwise (· < ·)) :
    s.foldl (fun acc x => setInsertNat x acc) [] = s := by
  suffices haux : ∀ (l acc : List Nat), (acc ++ l).Pairwise (· < ·) →
      l.foldl (fun acc x => setInsertNat x acc) acc = acc ++ l by
    simpa using haux s [] (by simpa using h)
  intro l
  induction l with
  | nil =>
    intro acc h2
    simp
  | cons x xs ih =>
    intro acc h2
    have hlt : ∀ y ∈ acc, y < x := by
      intro y hy
      rw [List.pairwise_append] at h2
      exact h2.2.2 y hy x (List.mem_cons_self x xs)
    simp only [List.foldl_cons]
    rw [setInsertNat_append hlt,
      ih (acc ++ [x]) (by simpa [List.append_assoc] using h2)]
    simp

theorem mapUpsert_append {k : Nat} {v : α} {acc : List (Nat × α)}
    (h : ∀ q ∈ acc, q.1 < k) :
    mapUpsert k (fun _ => v) acc = acc ++ [(k, v)] := by
  induction acc with
  | nil => rfl
  | cons q qs ih =>
    obtain ⟨k1, v1⟩ := q
    have hk : k1 < k := h (k1, v1) (List.mem_cons_self _ _)
    simp only [mapUpsert]
    rw [if_neg (by omega), if_neg (by omega),
      ih (fun z hz => h z (List.mem_cons_of_mem _ hz))]
    simp

theorem foldl_mapUpsert_sorted {l : List (Nat × α)} (h : keysSorted l) :
    l.foldl (fun acc p => mapUpsert p.1 (fun _ => p.2) acc) [] = l := by
  suffices haux : ∀ (l2 acc : List (Nat × α)), keysSorted (acc ++ l2) →
      l2.foldl (fun acc p => mapUpsert p.1 (fun _ => p.2) acc) acc = acc ++ l2 by
    simpa using haux l [] (by simpa [keysSorted] using h)
  intro l2
  induction l2 with
  | nil =>
    intro acc h2
    simp
  | cons p ps ih =>
    intro acc h2
    have hlt : ∀ q ∈ acc, q.1 < p.1 := by
      intro q hq
      rw [keysSorted, List.pairwise_append] at h2
      exact h2.2.2 q hq p (List.mem_cons_self p ps)
    simp only [List.foldl_cons]
    rw [mapUpsert_append hlt, Prod.mk.eta,
      ih (acc ++ [p]) (by simpa [keysSorted, List.append_assoc] using h2)]
    simp

theorem mapUpsert_length {k : Nat} {f : Option α → α} (l : List (Nat × α)) :
    (mapUpsert k f l).length ≤ l.length + 1 := by
  induction l with
  | nil => simp [mapUpsert]
  | cons q qs ih =>
    obtain ⟨k1, v1⟩ := q
    simp only [mapUpsert]
    split
    · simp
    · split
      · simp
      · simp only [List.length_cons]
        omega

theorem foldl_mapUpsert_length :
    ∀ (l : List (Nat × α)) (acc : List (Nat × α)),
      (l.foldl (fun acc p => mapUpsert p.1 (fun _ => p.2) acc) acc).length ≤
        acc.length + l.length := by
  intro l
  induction l with
  | nil => intro acc; simp
  | cons p ps ih =>
    intro acc
    simp only [List.foldl_cons, List.length_cons]
    have h1 := ih (mapUpsert p.1 (fun _ => p.2) acc)
    have h2 := @mapUpsert_length _ p.1 (fun _ => p.2) acc
    omega

theorem bytesLt_irrefl (a : Name) : bytesLt a a = false := by
  induction a with
  | nil => rfl
  | cons x xs ih => simp [bytesLt, ih]

theorem bytesLt_asymm {a b : Name} (h : bytesLt a b = true) : bytesLt b a = false := by
  induction a generalizing b with
  | nil =>
    cases b with
    | nil => simp [bytesLt] at h
    | cons y ys => rfl
  | cons x xs ih =>
    cases b with
    | nil => simp [bytesLt] at h
    | cons y ys =>
      simp only [bytesLt] at h ⊢
      split at h
      next hxy =>
        rw [if_neg (by omega), if_pos hxy]
      next hxy =>
        split at h
        next => exact absurd h (by simp)
        next hyx =>
          rw [if_neg (by omega), if_neg (by omega)]
          exact ih h

theorem exportsInsert_append {k : Name} {v : Nat} {acc : List (Name × Nat)}
    (h : ∀ q ∈ acc, bytesLt q.1 k = true) :
    exportsInsert k v acc = acc ++ [(k, v)] := by
  induction acc with
  | nil => rfl
  | cons q qs ih =>
    obtain ⟨k1, v1⟩ := q
    have hk : bytesLt k1 k = true := h (k1, v1) (List.mem_cons_self _ _)
    have hne : k ≠ k1 := by
      intro he
      subst he
      rw [bytesLt_irrefl] at hk
      exact absurd hk (by simp)
    have hnlt : bytesLt k k1 = false := bytesLt_asymm hk
    simp only [exportsInsert]
    rw [if_neg hne, if_neg (by simp [hnlt]),
      ih (fun z hz => h z (List.mem_cons_of_mem _ hz))]
    simp

theorem foldl_exportsInsert_sorted {e : List (Name × Nat)}
    (h : e.Pairwise (fun a b => bytesLt a.1 b.1 = true)) :
    e.foldl (fun acc p => exportsInsert p.1 p.2 acc) [] = e := by
  suffices haux : ∀ (l acc : List (Name × Nat)),
      (acc ++ l).Pairwise (fun a b => bytesLt a.1 b.1 = true) →
      l.foldl (fun acc p => exportsInsert p.1 p.2 acc) acc = acc ++ l by
    simpa using haux e [] (by simpa using h)
  intro l
  induction l with
  | nil =>
    intro acc h2
    simp
  | cons p ps ih =>
    intro acc h2
    have hlt : ∀ q ∈ acc, bytesLt q.1 p.1 = true := by
      intro q hq
      rw [List.pairwise_append] at h2
      exact h2.2.2 q hq p (List.mem_cons_self p ps)
    simp only [List.foldl_cons]
    rw [exportsInsert_append hlt, Prod.mk.eta,
      ih (acc ++ [p]) (by simpa [List.append_assoc] using h2)]
    simp

theorem natToBytesLE_length (w n : Nat) : (natToBytesLE w n).length = w := by
  induction w generalizing n with
  | zero => rfl
  | succ k ih => simp [natToBytesLE, ih]

theorem natToBytesLE_lt (w n : Nat) : ∀ b ∈ natToBytesLE w n, b < 256 := by
  induction w generalizing n with
  | zero => simp [natToBytesLE]
  | succ k ih =>
    intro b hb
    simp only [natToBytesLE, List.mem_cons] at hb
    rcases hb with h | h
    · omega
    · exact ih _ b h

theorem natFromBytesLE_toBytesLE {w n : Nat} (h : n < 256 ^ w) :
    natFromBytesLE (natToBytesLE w n) = n := by
  induction w generalizing n with
  | zero =>
    have h0 : n = 0 := by simpa using h
    simp [natToBytesLE, natFromBytesLE, h0]
  | succ k ih =>
    simp only [natToBytesLE, natFromBytesLE]
    have hdiv : n / 256 < 256 ^ k := by
      rw [Nat.pow_succ'] at h
      exact Nat.div_lt_of_lt_mul h
    rw [ih hdiv]
    omega

/-! ### Component round-trips -/

theorem decodeStr_encode {s : Name} (h : textOk s) (rest : List Nat) :
    decodeStr (encodeStr s ++ rest) = .ok (s, rest) := by
  obtain ⟨h1, h2⟩ := h
  have hlen : s.length % 256 = s.length := Nat.mod_eq_of_lt (by omega)
  simp only [encodeStr, List.cons_append, decodeStr]
  simp only [andThen_ok (readByte_cons (show s.length % 256 < 256 by omega))]
  rw [hlen]
  exact readBytes_append h2 rest

theorem decodeBytes16_encode {bs : List Nat} (h : bytes16Ok bs) (rest : List Nat) :
    decodeBytes16 (encodeBytes16 bs ++ rest) = .ok (bs, rest) := by
  obtain ⟨h1, h2⟩ := h
  simp only [encodeBytes16, List.append_assoc, decodeBytes16]
  simp only [andThen_ok (readU16_write (show bs.length < 65536 by omega) (bs ++ rest))]
  exact readBytes_append h2 rest

theorem decodeBytes16_write {bs : List Nat} (h : bytes16Ok bs) (rest : List Nat) :
    decodeBytes16 (writeU16 bs.length ++ (bs ++ rest)) = .ok (bs, rest) := by
  have h2 := decodeBytes16_encode h rest
  simpa [encodeBytes16, List.append_assoc] using h2

theorem decodeLibId_encode {id : LibId} (h : id < 256 ^ 32) (rest : List Nat) :
    decodeLibId (encodeLibId id ++ rest) = .ok (id, rest) := by
  simp only [encodeLibId, decodeLibId]
  simp only [andThen_ok (readBytes_append_len (natToBytesLE_length 32 id)
    (natToBytesLE_lt 32 id) rest)]
  rw [natFromBytesLE_toBytesLE h]

theorem decodeSites_encode {s : List Nat} (h : sitesOk s) (rest : List Nat) :
    decodeSites (encodeSites s ++ rest) = .ok (s, rest) := by
  obtain ⟨h1, h2, h3⟩ := h
  have hcount : ∀ x ∈ s, ∀ r : List Nat, readU16 (writeU16 x ++ r) = .ok (x, r) :=
    fun x hx r => readU16_write (h2 x hx) r
  simp only [encodeSites, List.append_assoc, decodeSites]
  simp only [andThen_ok (readU16_write (show s.length < 65536 by omega) _)]
  simp only [andThen_ok (decodeCount_encode hcount rest)]
  rw [foldl_setInsert_sorted h3]

theorem callRef_decode_encode {c : CallRef} (h : callRefOk c) (rest : List Nat) :
    CallRef.decode (c.encode ++ rest) = .ok (c, rest) := by
  obtain ⟨h1, h2⟩ := h
  simp only [CallRef.encode, List.append_assoc, CallRef.decode]
  simp only [andThen_ok (decodeStr_encode h1 _)]
  simp only [andThen_ok (decodeSites_encode h2 rest)]

theorem tableEntry_decode_encode {p : LibId × List CallRef}
    (hid : p.1 < 256 ^ 32) (hlen : p.2.length ≤ 65535) (hrefs : ∀ c ∈ p.2, callRefOk c)
    (rest : List Nat) :
    decodeTableEntry (encodeTableEntry p ++ rest) = .ok (p, rest) := by
  simp only [encodeTableEntry, List.append_assoc, decodeTableEntry]
  simp only [andThen_ok (decodeLibId_encode hid _)]
  simp only [andThen_ok (readU16_write (show p.2.length < 65536 by omega) _)]
  simp only [andThen_ok (decodeCount_encode
    (fun c hc r => callRef_decode_encode (hrefs c hc) r) rest)]

theorem callTable_decode_encode {t : CallTable} (h : tableOk t) (rest : List Nat) :
    CallTable.decode (t.encode ++ rest) = .ok (t, rest) := by
  obtain ⟨h1, h2, h3⟩ := h
  have hlen : t.table.length % 256 = t.table.length := Nat.mod_eq_of_lt (by omega)
  simp only [CallTable.encode, List.cons_append, CallTable.decode]
  simp only [andThen_ok (readByte_cons (show t.table.length % 256 < 256 by omega))]
  rw [hlen]
  simp only [andThen_ok (decodeCount_encode
    (fun p hp r => tableEntry_decode_encode (h3 p hp).1 (h3 p hp).2.1 (h3 p hp).2.2 r)
    rest)]
  rw [foldl_mapUpsert_sorted h2]

theorem libSeg_decode_encode {s : LibSeg} (h : libSegOk s) (rest : List Nat) :
    LibSeg.decode (s.encode ++ rest) = .ok (s, rest) := by
  obtain ⟨h1, h2, h3⟩ := h
  have hlen : s.libs.length % 256 = s.libs.length := Nat.mod_eq_of_lt (by omega)
  simp only [LibSeg.encode, List.cons_append, LibSeg.decode]
  simp only [andThen_ok (readByte_cons (show s.libs.length % 256 < 256 by omega))]
  rw [hlen]
  simp only [andThen_ok (decodeCount_encode
    (fun id hid r => decodeLibId_encode (h3 id hid) r) rest)]
  rw [foldl_setInsert_sorted h2]

theorem maybeNumber_decode_encode {d : Option (List Nat)} (h : defaultOk d)
    (rest : List Nat) :
    decodeMaybeNumber (encodeMaybeNumber d ++ rest) = .ok (d, rest) := by
  cases d with
  | none =>
    rw [show encodeMaybeNumber none = encodeBytes16 [] from rfl]
    simp only [decodeMaybeNumber]
    have hnil : bytes16Ok ([] : List Nat) := ⟨by simp, by simp⟩
    simp only [andThen_ok (decodeBytes16_encode hnil rest)]
    simp
  | some bs =>
    obtain ⟨h1, h2, h3⟩ := h
    rw [show encodeMaybeNumber (some bs) = encodeBytes16 bs from rfl]
    simp only [decodeMaybeNumber]
    simp only [andThen_ok (decodeBytes16_encode ⟨h2, h3⟩ rest)]
    simp [h1]

theorem dataType_decode_encode {d : DataType} (h : dataTypeOk d) (rest : List Nat) :
    DataType.decode (d.encode ++ rest) = .ok (d, rest) := by
  cases d with
  | ByteStr ob =>
    cases ob with
    | none =>
      have hnil : bytes16Ok ([] : List Nat) := ⟨by simp, by simp⟩
      have hby : decodeBytes16 (writeU16 0 ++ rest) = .ok ([], rest) := by
        simpa using decodeBytes16_write hnil rest
      simp only [DataType.encode, List.cons_append, DataType.decode]
      simp only [andThen_ok (readByte_cons (show (255 : Nat) < 256 by omega))]
      simp only [if_true, andThen_ok hby]
    | some bs =>
      obtain ⟨h1, h2, h3⟩ := h
      have hby : decodeBytes16 (writeU16 bs.length ++ (bs ++ rest)) = .ok (bs, rest) :=
        decodeBytes16_write ⟨h2, h3⟩ rest
      simp only [DataType.encode, List.cons_append, List.append_assoc, DataType.decode]
      simp only [andThen_ok (readByte_cons (show (255 : Nat) < 256 by omega))]
      simp only [if_true, andThen_ok hby]
      simp [h1]
  | Int l dflt =>
    obtain ⟨h1, h2⟩ := h
    obtain ⟨sgn, w⟩ := l
    have hw : w ≤ 65535 := h1
    have hmn := maybeNumber_decode_encode h2 rest
    have hu : readU16 (writeU16 w ++ (encodeMaybeNumber dflt ++ rest)) =
        .ok (w, encodeMaybeNumber dflt ++ rest) := readU16_write (by omega) _
    cases sgn with
    | false =>
      have he : DataType.encode (DataType.Int (IntLayout.mk false w) dflt) =
          0 :: (writeU16 w ++ encodeMaybeNumber dflt) := rfl
      rw [he]
      simp [List.cons_append, List.append_assoc, DataType.decode,
        andThen_ok (readByte_cons (show (0 : Nat) < 256 by omega)),
        andThen_ok hu, andThen_ok hmn]
    | true =>
      have he : DataType.encode (DataType.Int (IntLayout.mk true w) dflt) =
          1 :: (writeU16 w ++ encodeMaybeNumber dflt) := rfl
      rw [he]
      simp [List.cons_append, List.append_assoc, DataType.decode,
        andThen_ok (readByte_cons (show (1 : Nat) < 256 by omega)),
        andThen_ok hu, andThen_ok hmn]
  | Float f dflt =>
    have h255 : f.toNat ≠ 255 := by cases f <;> simp [FloatLayout.toNat]
    have hnle : ¬ f.toNat ≤ 1 := by cases f <;> simp [FloatLayout.toNat]
    have hlt : f.toNat < 256 := by cases f <;> simp [FloatLayout.toNat]
    have hwt : FloatLayout.withTag f.toNat = some f := by cases f <;> rfl
    simp only [DataType.encode, List.cons_append, DataType.decode]
    simp only [andThen_ok (readByte_cons hlt)]
    rw [if_neg h255, if_neg hnle, hwt]
    show andThen (decodeMaybeNumber (encodeMaybeNumber dflt ++ rest)) _ = _
    simp only [andThen_ok (maybeNumber_decode_encode h rest)]

theorem variable_decode_encode {v : Variable} (h : variableOk v) (rest : List Nat) :
    Variable.decode (v.encode ++ rest) = .ok (v, rest) := by
  obtain ⟨h1, h2⟩ := h
  simp only [Variable.encode, List.append_assoc, Variable.decode]
  simp only [andThen_ok (decodeStr_encode h1 _)]
  simp only [andThen_ok (dataType_decode_encode h2 rest)]

theorem exportEntry_decode_encode {p : Name × Nat} (h1 : textOk p.1) (h2 : p.2 < 65536)
    (rest : List Nat) :
    decodeExportEntry (encodeExportEntry p ++ rest) = .ok (p, rest) := by
  simp only [encodeExportEntry, List.append_assoc, decodeExportEntry]
  simp only [andThen_ok (decodeStr_encode h1 _)]
  simp only [andThen_ok (readU16_write h2 rest)]

theorem exports_decode_encode {e : List (Name × Nat)} (h : exportsOk e)
    (rest : List Nat) :
    decodeExports (encodeExports e ++ rest) = .ok (e, rest) := by
  obtain ⟨h1, h2, h3⟩ := h
  simp only [encodeExports, List.append_assoc, decodeExports]
  simp only [andThen_ok (readU16_write (show e.length < 65536 by omega) _)]
  simp only [andThen_ok (decodeCount_encode
    (fun p hp r => exportEntry_decode_encode (h3 p hp).1 (h3 p hp).2 r) rest)]
  rw [foldl_exportsInsert_sorted h2]

theorem vars_decode_encode {vs : List Variable} (hlen : vs.length ≤ 65535)
    (h : ∀ v ∈ vs, variableOk v) (rest : List Nat) :
    decodeVars (encodeVars vs ++ rest) = .ok (vs, rest) := by
  simp only [encodeVars, List.append_assoc, decodeVars]
  simp only [andThen_ok (readU16_write (show vs.length < 65536 by omega) _)]
  exact decodeCount_encode (fun v hv r => variable_decode_encode (h v hv) r) rest

theorem module_decode_encode_append {m : Module} (h : Module.valid m)
    (rest : List Nat) :
    Module.decode (Module.encode m ++ rest) = .ok (m, rest) := by
  obtain ⟨h1, h2, h3, h4, h5, h6, h7, h8⟩ := h
  simp only [Module.encode, List.append_assoc, Module.decode]
  simp only [andThen_ok (decodeStr_encode h1 _)]
  simp only [andThen_ok (decodeBytes16_encode h2 _)]
  simp only [andThen_ok (decodeBytes16_encode h3 _)]
  simp only [andThen_ok (libSeg_decode_encode h4 _)]
  simp only [andThen_ok (callTable_decode_encode h5 _)]
  simp only [andThen_ok (exports_decode_encode h6 _)]
  simp only [andThen_ok (vars_decode_encode h7 h8 rest)]

/-! ### Claim C3: round-trip -/

/-- A module exercising every field of the wire format. -/
def witModule : Module :=
  Module.mk [65] [7] [9] (LibSeg.mk [3])
    [Variable.mk [100] (DataType.Int (IntLayout.mk true 2) (some [1, 2])),
      Variable.mk [] (DataType.Float FloatLayout.ieee32 none),
      Variable.mk [] (DataType.ByteStr (some [5]))]
    (CallTable.mk [(2, [CallRef.mk [102] [1, 5], CallRef.mk [103] []]),
      (4, [CallRef.mk [102] []])])
    [([97], 10), ([98], 20)]

/-- A module whose only departure from `witModule`-style validity is a
byte-string variable carrying a present-but-empty default; every bound of the
data model (lengths, counts, sortedness) is respected. -/
def aliasModule : Module :=
  Module.mk [] [] [] (LibSeg.mk [])
    [Variable.mk [] (DataType.ByteStr (some []))] (CallTable.mk []) []

/-- Claim C3 fails as stated: `aliasModule` respects all data-model bounds,
but a `ByteStr` variable with a present empty default encodes identically to
one with no default, so `decode (encode aliasModule)` succeeds with a module
that is not structurally equal to `aliasModule`. -/
theorem roundtrip_fails_on_empty_default :
    Module.decode (Module.encode aliasModule) =
      .ok (Module.mk [] [] [] (LibSeg.mk [])
        [Variable.mk [] (DataType.ByteStr none)] (CallTable.mk []) [], [])
    ∧ Module.mk [] [] [] (LibSeg.mk [])
        [Variable.mk [] (DataType.ByteStr none)] (CallTable.mk []) [] ≠ aliasModule :=
  ⟨rfl, by decide⟩

/-- Claim C3, amended: for any valid module — fields within the wire-format
bounds, maps and sets sorted, and every optional default absent or non-empty
(the wire format identifies a present empty default with an absent one) —
decoding the encoding returns the module exactly, consuming all input. -/
theorem module_roundtrip (m : Module) (h : Module.valid m) :
    Module.decode (Module.encode m) = .ok (m, []) := by
  have h2 := module_decode_encode_append h []
  simpa using h2

theorem module_roundtrip_witness :
    Module.valid witModule ∧ Module.decode (Module.encode witModule) = .ok (witModule, []) :=
  ⟨by decide, module_roundtrip witModule (by decide)⟩

/-! ### Claim C6: the isae length bound on decoded modules -/

/-- Claim C6: every successfully decoded module has an isae string within the
ISA-extension segment maximum, which equals the largest value of the wire
format's 1-byte length prefix; an input whose isae field exceeded the bound
cannot exist, so the decoded bound can never be violated. -/
theorem decode_isae_bounded (input : List Nat) (m : Module) (rest : List Nat)
    (h : Module.decode input = .ok (m, rest)) :
    m.isae.length ≤ ISAE_SEGMENT_MAX_LEN := by
  simp only [Module.decode] at h
  obtain ⟨isae, r1, hi, h⟩ := andThen_ok_inv h
  obtain ⟨code, r2, hc, h⟩ := andThen_ok_inv h
  obtain ⟨dat, r3, hd, h⟩ := andThen_ok_inv h
  obtain ⟨libs, r4, hl, h⟩ := andThen_ok_inv h
  obtain ⟨imports, r5, him, h⟩ := andThen_ok_inv h
  obtain ⟨exports, r6, he, h⟩ := andThen_ok_inv h
  obtain ⟨vars, r7, hv, h⟩ := andThen_ok_inv h
  simp only [Except.ok.injEq, Prod.mk.injEq] at h
  obtain ⟨hm, -⟩ := h
  simp only [decodeStr] at hi
  obtain ⟨n, r0, hb, hr⟩ := andThen_ok_inv hi
  have hn : n < 256 := readByte_lt hb
  have hlen : isae.length = n := readBytes_length hr
  rw [← hm]
  show isae.length ≤ ISAE_SEGMENT_MAX_LEN
  rw [ISAE_SEGMENT_MAX_LEN]
  omega

theorem decode_isae_bounded_witness :
    Module.decode [0, 0, 0, 0, 0, 0, 0, 0, 0, 0, 0] =
      .ok (Module.mk [] [] [] (LibSeg.mk []) [] (CallTable.mk []) [], [])
    ∧ (Module.mk [] [] [] (LibSeg.mk []) [] (CallTable.mk []) []).isae.length ≤
        ISAE_SEGMENT_MAX_LEN :=
  ⟨rfl, decode_isae_bounded [0, 0, 0, 0, 0, 0, 0, 0, 0, 0, 0]
    (Module.mk [] [] [] (LibSeg.mk []) [] (CallTable.mk []) []) [] rfl⟩

/-! ### Claim C7: decode performs no semantic validation -/

/-- A byte stream declaring one library whose call-reference sequence holds
two entries with the same routine name `[102]`. -/
def dupStream : List Nat :=
  [0] ++ ([0, 0] ++ ([0, 0] ++ ([0] ++ ([1] ++ (List.replicate 32 0 ++
    ([2, 0] ++ ([1, 102, 0, 0] ++ ([1, 102, 0, 0] ++ ([0, 0] ++ [0, 0])))))))))

def dupModule : Module :=
  Module.mk [] [] [] (LibSeg.mk []) []
    (CallTable.mk [(0, [CallRef.mk [102] [], CallRef.mk [102] []])]) []

/-- Claim C7 fails as stated: decoding `dupStream` succeeds and returns a
module whose import table violates the dedup invariant — two `CallRef`
entries with equal routine names under one library — because `decode`
reconstructs the table without validating it. -/
theorem decode_skips_dedup_validation :
    Module.decode dupStream = .ok (dupModule, []) ∧ ¬ dedupInv dupModule.imports :=
  ⟨rfl, fun hinv =>
    (by decide : ¬ (List.Pairwise (fun a b : CallRef => a.routine ≠ b.routine)
      [CallRef.mk [102] [], CallRef.mk [102] []])) (hinv 0)⟩

/-- Claim C7, amended: decoding is atomic — it returns a structurally
complete module or fails — and the structural bounds forced by the length
prefixes hold (at most 255 libraries in the import table), but the dedup
invariant is not validated and duplicate routine names can escape decode. -/
theorem decode_table_size_bounded (input : List Nat) (m : Module) (rest : List Nat)
    (h : Module.decode input = .ok (m, rest)) :
    m.imports.table.length ≤ 255 := by
  simp only [Module.decode] at h
  obtain ⟨isae, r1, hi, h⟩ := andThen_ok_inv h
  obtain ⟨code, r2, hc, h⟩ := andThen_ok_inv h
  obtain ⟨dat, r3, hd, h⟩ := andThen_ok_inv h
  obtain ⟨libs, r4, hl, h⟩ := andThen_ok_inv h
  obtain ⟨imports, r5, him, h⟩ := andThen_ok_inv h
  obtain ⟨exports, r6, he, h⟩ := andThen_ok_inv h
  obtain ⟨vars, r7, hv, h⟩ := andThen_ok_inv h
  simp only [Except.ok.injEq, Prod.mk.injEq] at h
  obtain ⟨hm, -⟩ := h
  simp only [CallTable.decode] at him
  obtain ⟨n, s1, hb, him⟩ := andThen_ok_inv him
  obtain ⟨entries, s2, hent, him⟩ := andThen_ok_inv him
  simp only [Except.ok.injEq, Prod.mk.injEq] at him
  obtain ⟨htab, -⟩ := him
  have hn : n < 256 := readByte_lt hb
  have hentlen : entries.length = n := decodeCount_length hent
  have hfold := foldl_mapUpsert_length entries ([] : List (LibId × List CallRef))
  rw [← hm]
  show imports.table.length ≤ 255
  rw [← htab]
  simp only [List.length_nil, Nat.zero_add] at hfold
  exact le_trans hfold (by omega)

theorem decode_table_size_bounded_witness :
    Module.decode [0, 0, 0, 0, 0, 0, 0, 0, 0, 0, 0] =
      .ok (Module.mk [] [] [] (LibSeg.mk []) [] (CallTable.mk []) [], [])
    ∧ (Module.mk [] [] [] (LibSeg.mk []) [] (CallTable.mk []) []).imports.table.length ≤
        255 :=
  ⟨rfl, decode_table_size_bounded [0, 0, 0, 0, 0, 0, 0, 0, 0, 0, 0]
    (Module.mk [] [] [] (LibSeg.mk []) [] (CallTable.mk []) []) [] rfl⟩

/-! ### Claim C8: `DataType` tag dispatch -/

/-- Claim C8: `DataType` decoding dispatches on the tag byte as specified —
tag 0xFF yields `ByteStr` with an empty decoded sequence meaning no default;
tags 0 and 1 yield `Int` with signedness `tag == 1` and a 16-bit byte-width
field; any other tag yields `Float` for a recognized layout and fails with
the `FloatLayout` decode error when the tag maps to no known layout. -/
theorem dataType_decode_dispatch (b : Nat) (rest : List Nat) (hb : b < 256) :
    (∀ bs r2, b = 255 → decodeBytes16 rest = .ok (bs, r2) →
      DataType.decode (b :: rest) =
        .ok (DataType.ByteStr (if bs = [] then none else some bs), r2))
    ∧ (∀ w r2 d r3, b ≤ 1 → readU16 rest = .ok (w, r2) →
      decodeMaybeNumber r2 = .ok (d, r3) →
      DataType.decode (b :: rest) = .ok (DataType.Int (IntLayout.mk (b == 1) w) d, r3))
    ∧ (1 < b → b ≠ 255 → FloatLayout.withTag b = none →
      DataType.decode (b :: rest) = .error (DecodeError.FloatLayout b))
    ∧ (∀ f d r2, 1 < b → b ≠ 255 → FloatLayout.withTag b = some f →
      decodeMaybeNumber rest = .ok (d, r2) →
      DataType.decode (b :: rest) = .ok (DataType.Float f d, r2)) := by
  refine ⟨?_, ?_, ?_, ?_⟩
  · intro bs r2 h255 hbs
    subst h255
    simp only [DataType.decode, andThen_ok (readByte_cons hb)]
    simp only [if_true, andThen_ok hbs]
  · intro w r2 d r3 hle hw hd
    simp only [DataType.decode, andThen_ok (readByte_cons hb)]
    rw [if_neg (by omega), if_pos hle]
    simp only [andThen_ok hw, andThen_ok hd]
  · intro h1 h255 hwt
    simp only [DataType.decode, andThen_ok (readByte_cons hb)]
    rw [if_neg h255, if_neg (by omega), hwt]
  · intro f d r2 h1 h255 hwt hd
    simp only [DataType.decode, andThen_ok (readByte_cons hb)]
    rw [if_neg h255, if_neg (by omega), hwt]
    show andThen (decodeMaybeNumber rest) _ = _
    simp only [andThen_ok hd]

theorem dataType_decode_dispatch_witness :
    (255 : Nat) < 256 ∧ DataType.decode [255, 0, 0] = .ok (DataType.ByteStr none, []) := by
  refine ⟨by omega, ?_⟩
  have h := (dataType_decode_dispatch 255 [0, 0] (by omega)).1 [] [] rfl rfl
  simpa using h

end Aluasm
